import Mathlib

/-!
Shallow embedding of `src/scripts/terraform_aws_transformer.py`:
a Terraform (AWS-scoped) configuration normalizer producing a
deterministic, service-classified JSON envelope.

Parsed HCL documents are modelled as `Value` trees (Python dicts become
association lists with unique keys, in insertion order; Python lists become
`List Value`).  HCL parsing itself (`python-hcl2`) is an external
collaborator and is out of scope; a source unit carries its parse outcome.
-/

namespace TfTransform

/-- A parsed configuration value, as produced by the external HCL parser:
Python `None`/`bool`/`int`/`str`/`list`/`dict`.  A Python dict is modelled
as an association list in insertion order; real Python dicts never repeat
a key.  (Floats are not modelled; no claim depends on them.) -/
inductive Value where
  | vnull : Value
  | vbool (b : Bool) : Value
  | vint (n : Int) : Value
  | vstr (s : String) : Value
  | vlist (elems : List Value) : Value
  | vdict (entries : List (String × Value)) : Value

/-!
Decidable equality for `Value` (deriving does not handle the nesting
through `List` and `Prod`, so it is spelled out by mutual structural
recursion, which stays kernel-reducible for `decide`).
-/

mutual

def Value.beq : Value → Value → Bool
  | .vnull, .vnull => true
  | .vbool x, .vbool y => x == y
  | .vint x, .vint y => x == y
  | .vstr x, .vstr y => x == y
  | .vlist xs, .vlist ys => beqList xs ys
  | .vdict xs, .vdict ys => beqEntries xs ys
  | _, _ => false

def beqList : List Value → List Value → Bool
  | [], [] => true
  | x :: xs, y :: ys => Value.beq x y && beqList xs ys
  | _, _ => false

def beqEntries : List (String × Value) → List (String × Value) → Bool
  | [], [] => true
  | (k, v) :: xs, (k2, v2) :: ys => k == k2 && Value.beq v v2 && beqEntries xs ys
  | _, _ => false

end

theorem value_sizeOf_pos (a : Value) : 0 < sizeOf a := by
  cases a <;> simp

theorem list_sizeOf_pos {α : Type} [SizeOf α] (l : List α) : 0 < sizeOf l := by
  cases l <;> simp

theorem beq_iff :
    ∀ fuel : Nat,
      (∀ a b : Value, sizeOf a ≤ fuel → (Value.beq a b = true ↔ a = b)) ∧
      (∀ xs ys : List Value, sizeOf xs ≤ fuel → (beqList xs ys = true ↔ xs = ys)) ∧
      (∀ xs ys : List (String × Value), sizeOf xs ≤ fuel →
        (beqEntries xs ys = true ↔ xs = ys)) := by
  intro fuel
  induction fuel with
  | zero =>
      refine ⟨fun a b h => ?_, fun xs ys h => ?_, fun xs ys h => ?_⟩
      · exact absurd h (by have := value_sizeOf_pos a; omega)
      · exact absurd h (by have := list_sizeOf_pos xs; omega)
      · exact absurd h (by have := list_sizeOf_pos xs; omega)
  | succ fuel ih =>
      obtain ⟨ihv, ihl, ihe⟩ := ih
      refine ⟨fun a b h => ?_, fun xs ys h => ?_, fun xs ys h => ?_⟩
      · cases a <;> cases b <;>
          simp only [Value.beq, beq_iff_eq, Value.vbool.injEq, Value.vint.injEq,
            Value.vstr.injEq, Value.vlist.injEq, Value.vdict.injEq] <;>
          try simp
        · exact ihl _ _ (by simp at h; omega)
        · exact ihe _ _ (by simp at h; omega)
      · cases xs with
        | nil => cases ys <;> simp [beqList]
        | cons x xs =>
            cases ys with
            | nil => simp [beqList]
            | cons y ys =>
                simp only [beqList, Bool.and_eq_true, List.cons.injEq]
                simp only [List.cons.sizeOf_spec] at h
                rw [ihv x y (by have := list_sizeOf_pos xs; omega),
                  ihl xs ys (by have := value_sizeOf_pos x; omega)]
      · cases xs with
        | nil => cases ys <;> simp [beqEntries]
        | cons x xs =>
            cases ys with
            | nil => simp [beqEntries]
            | cons y ys =>
                obtain ⟨k, v⟩ := x
                obtain ⟨k2, v2⟩ := y
                simp only [beqEntries, Bool.and_eq_true, List.cons.injEq,
                  Prod.mk.injEq, beq_iff_eq]
                simp only [List.cons.sizeOf_spec, Prod.mk.sizeOf_spec] at h
                rw [ihv v v2 (by have := list_sizeOf_pos xs; omega),
                  ihe xs ys (by have := value_sizeOf_pos v; omega)]

instance : DecidableEq Value := fun a b =>
  decidable_of_iff (Value.beq a b = true) ((beq_iff (sizeOf a)).1 a b le_rfl)

/-! Python whitespace, `str.strip`, and the `EXPR_RE` regular expression. -/

/-- Python whitespace as matched by `\s` and stripped by `str.strip()`
(ASCII range; configuration strings are ASCII). -/
def pyWS (c : Char) : Bool :=
  c = ' ' || c = '\t' || c = '\n' || c = '\r' || c = '\x0b' || c = '\x0c'

def pyStripList (l : List Char) : List Char :=
  ((l.dropWhile pyWS).reverse.dropWhile pyWS).reverse

/-- Python `str.strip()`: whitespace removed from both ends. -/
def pyStrip (s : String) : String := ⟨pyStripList s.data⟩

/-- Model of `EXPR_RE = re.compile(r'^\s*\$\x7b\s*(?P<inner>[^\x7d]*)\s*\x7d\s*$')`
together with the `.strip()` applied to the captured group by the callers:
it succeeds exactly on strings that are one interpolation span surrounded
only by whitespace, and returns the inner text stripped.  The group is
`[^\x7d]*`, so a matching body never contains a closing brace, and the
first closing brace is the one that must be followed by whitespace only. -/
def matchExpr (s : String) : Option String :=
  match s.data.dropWhile pyWS with
  | '$' :: '{' :: rest =>
      match rest.dropWhile (fun c => c != '}') with
      | '}' :: tail =>
          if tail.all pyWS then
            some ⟨pyStripList (rest.takeWhile (fun c => c != '}'))⟩
          else none
      | _ => none
  | _ => none

/-! A stable insertion sort, modelling Python `sorted` (ascending, stable):
an element is inserted in front of the first element it is `le` to, so
elements that compare equal keep their original relative order. -/

def insSorted {α : Type} (le : α → α → Bool) (x : α) : List α → List α
  | [] => [x]
  | y :: ys => if le x y then x :: y :: ys else y :: insSorted le x ys

def sortBy {α : Type} (le : α → α → Bool) : List α → List α
  | [] => []
  | x :: xs => insSorted le x (sortBy le xs)

theorem mem_insSorted {α : Type} (le : α → α → Bool) (x a : α) :
    ∀ l : List α, a ∈ insSorted le x l ↔ a = x ∨ a ∈ l := by
  intro l
  induction l with
  | nil => simp [insSorted]
  | cons y ys ih =>
      by_cases h : le x y = true
      · simp [insSorted, h]
      · simp only [insSorted, h, if_false, Bool.false_eq_true, List.mem_cons, ih]
        tauto

theorem insSorted_perm {α : Type} (le : α → α → Bool) (x : α) :
    ∀ l : List α, (insSorted le x l).Perm (x :: l) := by
  intro l
  induction l with
  | nil => simp [insSorted]
  | cons y ys ih =>
      by_cases h : le x y = true
      · simp [insSorted, h]
      · simp only [insSorted, h, if_false, Bool.false_eq_true]
        exact List.Perm.trans (List.Perm.cons y ih) (List.Perm.swap x y ys)

theorem sortBy_perm {α : Type} (le : α → α → Bool) :
    ∀ l : List α, (sortBy le l).Perm l := by
  intro l
  induction l with
  | nil => exact List.Perm.refl []
  | cons x xs ih =>
      exact List.Perm.trans (insSorted_perm le x (sortBy le xs)) (List.Perm.cons x ih)

theorem mem_sortBy {α : Type} (le : α → α → Bool) (a : α) (l : List α) :
    a ∈ sortBy le l ↔ a ∈ l :=
  (sortBy_perm le l).mem_iff

theorem pairwise_insSorted {α : Type} {le : α → α → Bool}
    (htot : ∀ a b, le a b = true ∨ le b a = true)
    (htr : ∀ a b c, le a b = true → le b c = true → le a c = true)
    (x : α) : ∀ {l : List α}, l.Pairwise (fun a b => le a b = true) →
    (insSorted le x l).Pairwise (fun a b => le a b = true) := by
  intro l
  induction l with
  | nil => intro _; simp [insSorted]
  | cons y ys ih =>
      intro h
      rw [List.pairwise_cons] at h
      obtain ⟨hy, hys⟩ := h
      by_cases hxy : le x y = true
      · simp only [insSorted, hxy, if_true]
        rw [List.pairwise_cons]
        refine ⟨fun b hb => ?_, ?_⟩
        · rcases List.mem_cons.mp hb with rfl | hb
          · exact hxy
          · exact htr x y b hxy (hy b hb)
        · rw [List.pairwise_cons]; exact ⟨hy, hys⟩
      · have hyx : le y x = true := (htot x y).resolve_left hxy
        simp only [insSorted, hxy, if_false, Bool.false_eq_true]
        rw [List.pairwise_cons]
        refine ⟨fun b hb => ?_, ih hys⟩
        rcases (mem_insSorted le x b ys).mp hb with rfl | hb
        · exact hyx
        · exact hy b hb

theorem pairwise_sortBy {α : Type} {le : α → α → Bool}
    (htot : ∀ a b, le a b = true ∨ le b a = true)
    (htr : ∀ a b c, le a b = true → le b c = true → le a c = true) :
    ∀ l : List α, (sortBy le l).Pairwise (fun a b => le a b = true) := by
  intro l
  induction l with
  | nil => simp [sortBy]
  | cons x xs ih => exact pairwise_insSorted htot htr x ih

theorem sortBy_of_pairwise {α : Type} {le : α → α → Bool} :
    ∀ {l : List α}, l.Pairwise (fun a b => le a b = true) → sortBy le l = l := by
  intro l
  induction l with
  | nil => intro _; rfl
  | cons x xs ih =>
      intro h
      rw [List.pairwise_cons] at h
      obtain ⟨hx, hxs⟩ := h
      simp only [sortBy, ih hxs]
      cases xs with
      | nil => rfl
      | cons y ys => simp [insSorted, hx y (by simp)]

/-- Two sorted lists that are permutations of one another are equal,
provided the order is antisymmetric on the elements involved. -/
theorem eq_of_perm_of_pairwise {α : Type} {P : α → α → Prop} :
    ∀ {l₁ l₂ : List α}, l₁.Perm l₂ → l₁.Pairwise P → l₂.Pairwise P →
      (∀ a ∈ l₁, ∀ b ∈ l₁, P a b → P b a → a = b) → l₁ = l₂ := by
  intro l₁
  induction l₁ with
  | nil =>
      intro l₂ hp _ _ _
      exact hp.nil_eq
  | cons a t₁ ih =>
      intro l₂ hp h₁ h₂ hdet
      cases l₂ with
      | nil => exact absurd hp.symm.nil_eq (by simp)
      | cons b t₂ =>
          have hab : a = b := by
            by_cases hcase : a = b
            · exact hcase
            · have ha2 : a ∈ t₂ := by
                rcases List.mem_cons.mp (hp.mem_iff.mp (List.mem_cons_self a t₁)) with h | h
                · exact absurd h hcase
                · exact h
              have hb1 : b ∈ t₁ := by
                rcases List.mem_cons.mp (hp.symm.mem_iff.mp (List.mem_cons_self b t₂)) with h | h
                · exact absurd h.symm hcase
                · exact h
              have hPab : P a b := (List.pairwise_cons.mp h₁).1 b hb1
              have hPba : P b a := (List.pairwise_cons.mp h₂).1 a ha2
              exact hdet a (List.mem_cons_self a t₁) b (List.mem_cons_of_mem a hb1) hPab hPba
          subst hab
          have ht : t₁.Perm t₂ := hp.cons_inv
          have := ih ht (List.pairwise_cons.mp h₁).2 (List.pairwise_cons.mp h₂).2
            (fun x hx y hy => hdet x (List.mem_cons_of_mem a hx) y (List.mem_cons_of_mem a hy))
          rw [this]

/-- Stable sorting is permutation-invariant as soon as the sort key is
antisymmetric on the elements of the list. -/
theorem sortBy_eq_of_perm {α : Type} {le : α → α → Bool}
    (htot : ∀ a b, le a b = true ∨ le b a = true)
    (htr : ∀ a b c, le a b = true → le b c = true → le a c = true)
    {l₁ l₂ : List α} (hp : l₁.Perm l₂)
    (hdet : ∀ a ∈ l₁, ∀ b ∈ l₁, le a b = true → le b a = true → a = b) :
    sortBy le l₁ = sortBy le l₂ := by
  refine eq_of_perm_of_pairwise
    ((sortBy_perm le l₁).trans (hp.trans (sortBy_perm le l₂).symm))
    (pairwise_sortBy htot htr l₁) (pairwise_sortBy htot htr l₂) ?_
  intro a ha b hb
  exact hdet a ((mem_sortBy le a l₁).mp ha) b ((mem_sortBy le b l₁).mp hb)

/-! `normalize_value` (source lines 83-100).  The Python function recurses
into the values of the key-sorted dict, which is not a structural subterm,
so the Lean model recurses on an explicit fuel argument (any fuel at least
the structural size of the value suffices; `normalize_value` passes exactly
that).  This keeps the definition kernel-reducible. -/

mutual

def vsize : Value → Nat
  | .vnull => 1
  | .vbool _ => 1
  | .vint _ => 1
  | .vstr _ => 1
  | .vlist xs => sizeL xs + 1
  | .vdict kvs => sizeE kvs + 1

def sizeL : List Value → Nat
  | [] => 1
  | x :: xs => vsize x + sizeL xs + 1

def sizeE : List (String × Value) → Nat
  | [] => 1
  | kv :: rest => vsize kv.2 + sizeE rest + 1

end

theorem vsize_pos (v : Value) : 1 ≤ vsize v := by
  cases v <;> simp [vsize]

theorem sizeL_pos (l : List Value) : 1 ≤ sizeL l := by
  cases l <;> simp [sizeL]

theorem sizeE_pos (l : List (String × Value)) : 1 ≤ sizeE l := by
  cases l <;> simp [sizeE]

/-! Python string comparison: lexicographic on Unicode code points.
(Defined over `String.data` so the kernel can evaluate it; Lean's own
`String.ltb` iterates over positions and does not reduce.) -/

def strLTb : List Char → List Char → Bool
  | _, [] => false
  | [], _ :: _ => true
  | a :: ra, b :: rb =>
      decide (a.toNat < b.toNat) || (decide (a.toNat = b.toNat) && strLTb ra rb)

def strLEb : List Char → List Char → Bool
  | [], _ => true
  | _ :: _, [] => false
  | a :: ra, b :: rb =>
      decide (a.toNat < b.toNat) || (decide (a.toNat = b.toNat) && strLEb ra rb)

/-- Python `a < b` on strings. -/
def strLT (a b : String) : Bool := strLTb a.data b.data

/-- Python `a <= b` on strings. -/
def strLE (a b : String) : Bool := strLEb a.data b.data

def strPreList : List Char → List Char → Bool
  | [], _ => true
  | _ :: _, [] => false
  | a :: ra, b :: rb => a == b && strPreList ra rb

/-- Python `s.startswith(pre)`. -/
def strStartsWith (s pre : String) : Bool := strPreList pre.data s.data

/-- Entry comparison used for `sorted(v.items(), key=lambda kv: kv[0])`:
ascending lexicographic order on the key string.  (Python dict keys are
unique, so the tuple comparison never reaches the values.) -/
def entryLE (a b : String × Value) : Bool := strLE a.1 b.1

theorem sizeE_insSorted (kv : String × Value) :
    ∀ l : List (String × Value), sizeE (insSorted entryLE kv l) = vsize kv.2 + sizeE l + 1 := by
  intro l
  induction l with
  | nil => simp [insSorted, sizeE]
  | cons y ys ih =>
      by_cases h : entryLE kv y = true
      · simp [insSorted, h, sizeE]
      · simp [insSorted, h, sizeE, ih]
        omega

theorem sizeE_sortBy (l : List (String × Value)) : sizeE (sortBy entryLE l) = sizeE l := by
  induction l with
  | nil => rfl
  | cons kv rest ih => simp [sortBy, sizeE_insSorted, ih, sizeE]

/-- The keys dropped inside the dict loop of `normalize_value`. -/
def keepEntry (kv : String × Value) : Bool :=
  !(kv.1 == "provisioner" || kv.1 == "connection")

mutual

def normGo : Nat → Value → Value
  | 0, v => v
  | _ + 1, .vstr s =>
      match matchExpr s with
      | some inner => .vdict [("$expr", .vstr inner)]
      | none => .vstr s
  | fuel + 1, .vlist xs => .vlist (normListGo fuel xs)
  | fuel + 1, .vdict kvs => .vdict (normEntriesGo fuel (sortBy entryLE kvs))
  | _ + 1, v => v

def normListGo : Nat → List Value → List Value
  | 0, l => l
  | _ + 1, [] => []
  | fuel + 1, x :: xs => normGo fuel x :: normListGo fuel xs

def normEntriesGo : Nat → List (String × Value) → List (String × Value)
  | 0, l => l
  | _ + 1, [] => []
  | fuel + 1, (k, v) :: rest =>
      if k == "provisioner" || k == "connection" then normEntriesGo fuel rest
      else (k, normGo fuel v) :: normEntriesGo fuel rest

end

/-- `normalize_value` (source lines 83-100): sort dict items by key, drop
`provisioner`/`connection` entries, recurse into dict values and list
elements, and rewrite pure-interpolation strings into the tagged
one-key mapping. -/
def normalize_value (v : Value) : Value := normGo (vsize v) v

theorem normGo_irrel :
    ∀ n : Nat,
      (∀ (v : Value) (f₁ f₂ : Nat), vsize v ≤ n → vsize v ≤ f₁ → vsize v ≤ f₂ →
        normGo f₁ v = normGo f₂ v) ∧
      (∀ (l : List Value) (f₁ f₂ : Nat), sizeL l ≤ n → sizeL l ≤ f₁ → sizeL l ≤ f₂ →
        normListGo f₁ l = normListGo f₂ l) ∧
      (∀ (l : List (String × Value)) (f₁ f₂ : Nat), sizeE l ≤ n → sizeE l ≤ f₁ → sizeE l ≤ f₂ →
        normEntriesGo f₁ l = normEntriesGo f₂ l) := by
  intro n
  induction n with
  | zero =>
      refine ⟨fun v f₁ f₂ h _ _ => ?_, fun l f₁ f₂ h _ _ => ?_, fun l f₁ f₂ h _ _ => ?_⟩
      · exact absurd h (by have := vsize_pos v; omega)
      · exact absurd h (by have := sizeL_pos l; omega)
      · exact absurd h (by have := sizeE_pos l; omega)
  | succ n ih =>
      obtain ⟨ihv, ihl, ihe⟩ := ih
      refine ⟨fun v f₁ f₂ hn h₁ h₂ => ?_, fun l f₁ f₂ hn h₁ h₂ => ?_,
        fun l f₁ f₂ hn h₁ h₂ => ?_⟩
      · obtain ⟨g₁, rfl⟩ : ∃ g, f₁ = g + 1 := by
          have := vsize_pos v; exact ⟨f₁ - 1, by omega⟩
        obtain ⟨g₂, rfl⟩ : ∃ g, f₂ = g + 1 := by
          have := vsize_pos v; exact ⟨f₂ - 1, by omega⟩
        cases v with
        | vnull => rfl
        | vbool b => rfl
        | vint m => rfl
        | vstr s => rfl
        | vlist xs =>
            simp only [normGo, Value.vlist.injEq]
            exact ihl xs g₁ g₂ (by simp [vsize] at hn; omega)
              (by simp [vsize] at h₁; omega) (by simp [vsize] at h₂; omega)
        | vdict kvs =>
            simp only [normGo, Value.vdict.injEq]
            exact ihe (sortBy entryLE kvs) g₁ g₂
              (by simp [vsize, sizeE_sortBy] at hn ⊢; omega)
              (by simp [vsize, sizeE_sortBy] at h₁ ⊢; omega)
              (by simp [vsize, sizeE_sortBy] at h₂ ⊢; omega)
      · obtain ⟨g₁, rfl⟩ : ∃ g, f₁ = g + 1 := by
          have := sizeL_pos l; exact ⟨f₁ - 1, by omega⟩
        obtain ⟨g₂, rfl⟩ : ∃ g, f₂ = g + 1 := by
          have := sizeL_pos l; exact ⟨f₂ - 1, by omega⟩
        cases l with
        | nil => rfl
        | cons x xs =>
            simp only [normListGo, List.cons.injEq]
            have hx := vsize_pos x
            have hxs := sizeL_pos xs
            simp only [sizeL] at hn h₁ h₂
            exact ⟨ihv x g₁ g₂ (by omega) (by omega) (by omega),
              ihl xs g₁ g₂ (by omega) (by omega) (by omega)⟩
      · obtain ⟨g₁, rfl⟩ : ∃ g, f₁ = g + 1 := by
          have := sizeE_pos l; exact ⟨f₁ - 1, by omega⟩
        obtain ⟨g₂, rfl⟩ : ∃ g, f₂ = g + 1 := by
          have := sizeE_pos l; exact ⟨f₂ - 1, by omega⟩
        cases l with
        | nil => rfl
        | cons kv rest =>
            obtain ⟨k, v⟩ := kv
            have hv := vsize_pos v
            have hrest := sizeE_pos rest
            simp only [sizeE] at hn h₁ h₂
            by_cases hk : (k == "provisioner" || k == "connection") = true
            · simp only [normEntriesGo, hk, if_true]
              exact ihe rest g₁ g₂ (by omega) (by omega) (by omega)
            · simp only [normEntriesGo, hk, if_false, Bool.false_eq_true, List.cons.injEq]
              exact ⟨by rw [ihv v g₁ g₂ (by omega) (by omega) (by omega)],
                ihe rest g₁ g₂ (by omega) (by omega) (by omega)⟩

theorem normListGo_eq :
    ∀ (l : List Value) (f : Nat), sizeL l ≤ f → normListGo f l = l.map normalize_value := by
  intro l
  induction l with
  | nil =>
      intro f hf
      obtain ⟨g, rfl⟩ : ∃ g, f = g + 1 := ⟨f - 1, by simp [sizeL] at hf; omega⟩
      rfl
  | cons x xs ih =>
      intro f hf
      have hx := vsize_pos x
      have hxs := sizeL_pos xs
      simp only [sizeL] at hf
      obtain ⟨g, rfl⟩ : ∃ g, f = g + 1 := ⟨f - 1, by omega⟩
      simp only [normListGo, List.map_cons, List.cons.injEq]
      exact ⟨(normGo_irrel (vsize x)).1 x g (vsize x) le_rfl (by omega) le_rfl,
        ih g (by omega)⟩

theorem normEntriesGo_eq :
    ∀ (l : List (String × Value)) (f : Nat), sizeE l ≤ f →
      normEntriesGo f l = (l.filter keepEntry).map (fun kv => (kv.1, normalize_value kv.2)) := by
  intro l
  induction l with
  | nil =>
      intro f hf
      obtain ⟨g, rfl⟩ : ∃ g, f = g + 1 := ⟨f - 1, by simp [sizeE] at hf; omega⟩
      rfl
  | cons kv rest ih =>
      intro f hf
      obtain ⟨k, v⟩ := kv
      have hv := vsize_pos v
      have hrest := sizeE_pos rest
      simp only [sizeE] at hf
      obtain ⟨g, rfl⟩ : ∃ g, f = g + 1 := ⟨f - 1, by omega⟩
      by_cases hk : (k == "provisioner" || k == "connection") = true
      · have hkeep : keepEntry (k, v) = false := by simp [keepEntry, hk]
        simp only [normEntriesGo, hk, if_true, List.filter_cons, hkeep,
          Bool.false_eq_true, if_false]
        exact ih g (by omega)
      · have hkeep : keepEntry (k, v) = true := by simp [keepEntry, hk]
        simp only [normEntriesGo, hk, if_false, Bool.false_eq_true, List.filter_cons,
          hkeep, if_true, List.map_cons, List.cons.injEq]
        refine ⟨?_, ih g (by omega)⟩
        have h2 : normGo g v = normalize_value v :=
          (normGo_irrel (vsize v)).1 v g (vsize v) le_rfl (by omega) le_rfl
        rw [h2]

theorem normalize_vnull : normalize_value .vnull = .vnull := rfl

theorem normalize_vbool (b : Bool) : normalize_value (.vbool b) = .vbool b := rfl

theorem normalize_vint (n : Int) : normalize_value (.vint n) = .vint n := rfl

theorem normalize_vstr (s : String) :
    normalize_value (.vstr s) =
      match matchExpr s with
      | some inner => .vdict [("$expr", .vstr inner)]
      | none => .vstr s := rfl

theorem normalize_vlist (xs : List Value) :
    normalize_value (.vlist xs) = .vlist (xs.map normalize_value) := by
  show normGo (vsize (.vlist xs)) (.vlist xs) = _
  have hs : vsize (.vlist xs) = sizeL xs + 1 := by simp [vsize]
  rw [hs]
  simp only [normGo, Value.vlist.injEq]
  exact normListGo_eq xs (sizeL xs) le_rfl

theorem normalize_vdict (kvs : List (String × Value)) :
    normalize_value (.vdict kvs) =
      .vdict (((sortBy entryLE kvs).filter keepEntry).map
        (fun kv => (kv.1, normalize_value kv.2))) := by
  show normGo (vsize (.vdict kvs)) (.vdict kvs) = _
  have hs : vsize (.vdict kvs) = sizeE kvs + 1 := by simp [vsize]
  rw [hs]
  simp only [normGo, Value.vdict.injEq]
  exact normEntriesGo_eq (sortBy entryLE kvs) (sizeE kvs) (by rw [sizeE_sortBy])

/-! Service/type classification tables (source lines 19-62). -/

def VPC_TYPES : List String :=
  ["aws_vpc", "aws_vpc_dhcp_options", "aws_vpc_dhcp_options_association",
   "aws_subnet", "aws_route_table", "aws_route",
   "aws_main_route_table_association", "aws_route_table_association",
   "aws_network_acl", "aws_network_acl_rule", "aws_internet_gateway",
   "aws_nat_gateway", "aws_eip_association", "aws_vpc_endpoint",
   "aws_vpc_endpoint_service", "aws_vpc_peering_connection",
   "aws_vpc_peering_connection_accepter", "aws_flow_log",
   "aws_network_interface", "aws_network_interface_sg_attachment"]

def EC2_TYPES : List String :=
  ["aws_instance", "aws_ami", "aws_ami_copy", "aws_ami_from_instance",
   "aws_ebs_volume", "aws_ebs_snapshot", "aws_volume_attachment",
   "aws_snapshot_create_volume_permission", "aws_key_pair",
   "aws_launch_template", "aws_placement_group", "aws_spot_fleet_request",
   "aws_eip"]

def SERVICES_KEYS : List String := ["ec2", "iam", "rds", "s3", "vpc"]

/-- `service_for_type` (lines 68-79); the literals are the source constants
`IAM_PREFIX = "aws_iam_"`, `S3_PREFIX = "aws_s3_"` and
`RDS_PREFIXES = ("aws_rds_", "aws_db_")`, inlined. -/
def service_for_type (t : String) : Option String :=
  if strStartsWith t "aws_iam_" then some "iam"
  else if strStartsWith t "aws_s3_" then some "s3"
  else if strStartsWith t "aws_rds_" || strStartsWith t "aws_db_" then some "rds"
  else if VPC_TYPES.contains t then some "vpc"
  else if EC2_TYPES.contains t then some "ec2"
  else none

/-- `_to_expr_or_val` (lines 103-108). -/
def toExprOrVal (x : Value) : Value :=
  match x with
  | .vstr s =>
      match matchExpr s with
      | some inner => .vdict [("$expr", .vstr inner)]
      | none => .vstr s
  | v => v

/-! Python `str()` as applied to `depends_on` elements.  Exact for strings,
integers, booleans and `None`; containers fall back to a `repr`-style
rendering (fuel-based like `normalize_value`), whose escape subtleties for
quotes inside strings are not modelled — no claim depends on them. -/

mutual

def reprGo : Nat → Value → String
  | 0, _ => ""
  | _ + 1, .vnull => "None"
  | _ + 1, .vbool true => "True"
  | _ + 1, .vbool false => "False"
  | _ + 1, .vint n => toString n
  | _ + 1, .vstr s => "\x27" ++ s ++ "\x27"
  | fuel + 1, .vlist xs => "[" ++ reprListGo fuel xs ++ "]"
  | fuel + 1, .vdict kvs => "\x7b" ++ reprEntriesGo fuel kvs ++ "\x7d"

def reprListGo : Nat → List Value → String
  | 0, _ => ""
  | _ + 1, [] => ""
  | fuel + 1, [x] => reprGo fuel x
  | fuel + 1, x :: xs => reprGo fuel x ++ ", " ++ reprListGo fuel xs

def reprEntriesGo : Nat → List (String × Value) → String
  | 0, _ => ""
  | _ + 1, [] => ""
  | fuel + 1, [(k, v)] => "\x27" ++ k ++ "\x27: " ++ reprGo fuel v
  | fuel + 1, (k, v) :: rest =>
      "\x27" ++ k ++ "\x27: " ++ reprGo fuel v ++ ", " ++ reprEntriesGo fuel rest

end

/-- Python `str(x)` for a parsed value. -/
def pyStr : Value → String
  | .vstr s => s
  | v => reprGo (vsize v) v

/-- Python `dict.pop(k, None)`: the value bound to `k` (if any) together
with the dict with that binding removed.  Python dicts have unique keys,
so removing the first binding models `pop` exactly. -/
def popKey (k : String) : List (String × Value) → Option Value × List (String × Value)
  | [] => (none, [])
  | (k2, v) :: rest =>
      if k2 == k then (some v, rest)
      else
        let r := popKey k rest
        (r.1, (k2, v) :: r.2)

/-- `extract_meta` (lines 111-131).  The Python function mutates `attrs`;
the model returns the remaining attributes as the last component.
`attrs.pop(k, None)` yields Python `None` both for a missing key and for a
key bound to null, and the following `is None` checks treat the two alike,
so a null binding collapses into absence. -/
def extract_meta (attrs : List (String × Value)) :
    Option Value × Option Value × List String × Option String × List (String × Value) :=
  let pc := popKey "count" attrs
  let pf := popKey "for_each" pc.2
  let pd := popKey "depends_on" pf.2
  let pp := popKey "provider" pd.2
  let count : Option Value :=
    match pc.1 with
    | some .vnull => none
    | some v => some (toExprOrVal v)
    | none => none
  let for_each : Option Value :=
    match pf.1 with
    | some .vnull => none
    | some v => some (toExprOrVal v)
    | none => none
  let depends : List String :=
    match pd.1 with
    | none => []
    | some .vnull => []
    | some (.vlist xs) => xs.map pyStr
    | some v => [pyStr v]
  let provider_alias : Option String :=
    match pp.1 with
    | some (.vstr s) => some s
    | _ => none
  (count, for_each, depends, provider_alias, pp.2)

/-- The reasons `make_record` can return (source: one-element tuples such
as `("non_aws_provider",)`). -/
inductive IgnoreReason where
  | non_aws_provider
  | unsupported_service
  | malformed_block
  | non_aws_provider_alias
deriving DecidableEq

def IgnoreReason.toStr : IgnoreReason → String
  | .non_aws_provider => "non_aws_provider"
  | .unsupported_service => "unsupported_service"
  | .malformed_block => "malformed_block"
  | .non_aws_provider_alias => "non_aws_provider_alias"

/-- The normalized output record assembled by `make_record`
(an `OrderedDict` with these fields, in this order, in the source). -/
structure NormalizedRecord where
  address : String
  type : String
  name : String
  service : String
  mode : String
  provider_alias : Option String
  depends_on : List String
  count : Option Value
  for_each : Option Value
  attributes : List (String × Value)
deriving DecidableEq

/-- `make_record` (lines 134-162): validations in source order, then
metadata extraction, then assembly of the record. -/
def make_record (kind rtype name : String) (body : Value) :
    Option NormalizedRecord × Option IgnoreReason :=
  if !(strStartsWith rtype "aws_") then (none, some .non_aws_provider)
  else
    match service_for_type rtype with
    | none => (none, some .unsupported_service)
    | some service =>
        match body with
        | .vdict bodyEntries =>
            let m := extract_meta bodyEntries
            let count := m.1
            let for_each := m.2.1
            let depends_on := m.2.2.1
            let provider_alias := m.2.2.2.1
            let attrs := m.2.2.2.2
            -- `if provider_alias and not provider_alias.startswith("aws")`:
            -- the empty string is falsy in Python, so an empty alias skips
            -- the check.
            let aliasRejected : Bool :=
              match provider_alias with
              | some p => !(p == "") && !(strStartsWith p "aws")
              | none => false
            if aliasRejected then (none, some .non_aws_provider_alias)
            else
              -- `OrderedDict(sorted((k, normalize_value(v)) for k, v in
              -- attrs.items()))`: tuples sorted ascending; unique keys mean
              -- the comparison is decided by the key alone.
              let norm_attrs :=
                sortBy entryLE (attrs.map (fun kv => (kv.1, normalize_value kv.2)))
              (some {
                address := rtype ++ "." ++ name,
                type := rtype,
                name := name,
                service := service,
                mode := if kind == "data" then "data" else "resource",
                provider_alias :=
                  match provider_alias with
                  | some p => if p == "" then none else some p
                  | none => none,
                depends_on := depends_on,
                count := count,
                for_each := for_each,
                attributes := norm_attrs }, none)
        | _ => (none, some .malformed_block)

/-- A parsed document: the top-level mapping returned by the external HCL
parser. -/
abbrev Doc := List (String × Value)

/-- Python `doc.get(k)`: `None` both when the key is missing and when it
is bound to null; the callers treat the two alike. -/
def dictGet (d : List (String × Value)) (k : String) : Option Value :=
  (d.find? (fun kv => kv.1 == k)).map (fun kv => kv.2)

/-- `isinstance(x, dict)`. -/
def Value.isMapping : Value → Bool
  | .vdict _ => true
  | _ => false

/-- `isinstance(x, list)`. -/
def Value.isSequence : Value → Bool
  | .vlist _ => true
  | _ => false

/-- `isinstance(x, str)`. -/
def Value.isString : Value → Bool
  | .vstr _ => true
  | _ => false

/-- `_iter_resource_entries` (lines 176-186): tolerate a section given as
a mapping or as a sequence of mappings; anything else yields nothing.
(`doc.get` returns `None` for a missing section, and an explicit null
section falls through the `isinstance` checks the same way.) -/
def iter_resource_entries : Option Value → List (String × Value)
  | none => []
  | some (.vlist entries) =>
      entries.flatMap (fun e =>
        match e with
        | .vdict kvs => kvs
        | _ => [])
  | some (.vdict kvs) => kvs
  | some _ => []

/-- `_iter_name_bodies` (lines 189-197): same tolerance one level down. -/
def iter_name_bodies : Value → List (String × Value)
  | .vlist blocks =>
      blocks.flatMap (fun b =>
        match b with
        | .vdict kvs => kvs
        | _ => [])
  | .vdict kvs => kvs
  | _ => []

/-- A diagnostic entry, as built by `collect_from_doc` (declaration-level)
and by the transform loops (file-level).  Python builds plain dicts; the
optional fields model the keys that are present only for one of the two
shapes. -/
structure IgnoredItem where
  kind : String
  type : Option String
  name : Option String
  path : Option String
  message : Option String
  reason : String
deriving DecidableEq

/-- `err[0] if err else "unknown"`. -/
def reasonStr : Option IgnoreReason → String
  | some r => r.toStr
  | none => "unknown"

/-- The inner loop of `collect_from_doc`: one `(name, body)` pass. -/
def collect_bodies (kind rtype : String) (include_ignored : Bool) :
    List (String × Value) → List NormalizedRecord × List IgnoredItem
  | [] => ([], [])
  | (name, body) :: rest =>
      let acc := collect_bodies kind rtype include_ignored rest
      match make_record kind rtype name body with
      | (some rec, _) => (rec :: acc.1, acc.2)
      | (none, err) =>
          if include_ignored then
            (acc.1, { kind := kind, type := some rtype, name := some name,
                      path := none, message := none,
                      reason := reasonStr err } :: acc.2)
          else acc

/-- The outer loop of `collect_from_doc`: one `(rtype, blocks)` pass,
skipping `None` blocks. -/
def collect_pairs (kind : String) (include_ignored : Bool) :
    List (String × Value) → List NormalizedRecord × List IgnoredItem
  | [] => ([], [])
  | (rtype, blocks) :: rest =>
      let acc := collect_pairs kind include_ignored rest
      if blocks == .vnull then acc
      else
        let here := collect_bodies kind rtype include_ignored (iter_name_bodies blocks)
        (here.1 ++ acc.1, here.2 ++ acc.2)

/-- `collect_from_doc` (lines 200-227). -/
def collect_from_doc (doc : Doc) (include_ignored : Bool) :
    List NormalizedRecord × List NormalizedRecord × List IgnoredItem :=
  let r := collect_pairs "resource" include_ignored
    (iter_resource_entries (dictGet doc "resource"))
  let d := collect_pairs "data" include_ignored
    (iter_resource_entries (dictGet doc "data"))
  (r.1, d.1, r.2 ++ d.2)

/-- Python tuple comparison on equal-length tuples of strings:
lexicographic. -/
def listLEb : List String → List String → Bool
  | [], _ => true
  | _ :: _, [] => false
  | a :: ra, b :: rb => strLT a b || (a == b && listLEb ra rb)

def recKey (r : NormalizedRecord) : List String := [r.type, r.name, r.address]

/-- The key of `sort_records` (line 231): `(r["type"], r["name"], r["address"])`. -/
def recLE (a b : NormalizedRecord) : Bool := listLEb (recKey a) (recKey b)

/-- `sort_records` (lines 230-231): Python `sorted`, stable, ascending. -/
def sort_records (recs : List NormalizedRecord) : List NormalizedRecord :=
  sortBy recLE recs

structure ServiceBucket where
  resources : List NormalizedRecord
  data_sources : List NormalizedRecord
deriving DecidableEq

/-- `organize_by_service` (lines 234-243).  Appending each record to
`services[r["service"]]` in input order and then sorting equals sorting
the service-filtered sublist.  (For a record whose service is outside
`SERVICES_KEYS` the Python code would raise `KeyError`; `make_record`
only ever emits services from the table, so the filter model agrees on
every reachable input.) -/
def organize_by_service (resources datas : List NormalizedRecord) :
    List (String × ServiceBucket) :=
  SERVICES_KEYS.map (fun k =>
    (k, { resources := sort_records (resources.filter (fun r => r.service == k)),
          data_sources := sort_records (datas.filter (fun d => d.service == k)) }))

def ignKey (x : IgnoredItem) : List String :=
  [x.kind, x.type.getD "", x.name.getD "", x.path.getD "", x.reason]

/-- The key of the final `ignored` sort (line 275):
`(x.get("kind",""), x.get("type",""), x.get("name",""), x.get("path",""), x.get("reason",""))`. -/
def ignLE (a b : IgnoredItem) : Bool := listLEb (ignKey a) (ignKey b)

/-- The outcome of `parse_tf_string` for one unit: parsing is performed by
the external `hcl2` library, so a source unit carries its result. -/
inductive ParsedOrError where
  | ok (doc : Doc)
  | error (message : String)
deriving DecidableEq

structure SourceFile where
  path : String
  parsed : ParsedOrError
deriving DecidableEq

structure OutputEnvelope where
  version : String
  provider : String
  services : List (String × ServiceBucket)
  ignored : Option (List IgnoredItem)
deriving DecidableEq

/-- The per-file loop of `transform_from_prompt` (lines 255-267): a parse
failure becomes a file-level diagnostic when requested; otherwise the
document's records and diagnostics are appended. -/
def collect_units :
    List SourceFile → Bool → List NormalizedRecord × List NormalizedRecord × List IgnoredItem
  | [], _ => ([], [], [])
  | f :: fs, include_ignored =>
      let rest := collect_units fs include_ignored
      match f.parsed with
      | .error e =>
          if include_ignored then
            (rest.1, rest.2.1,
              { kind := "file", type := none, name := none, path := some f.path,
                message := some e, reason := "parse_error" } :: rest.2.2)
          else rest
      | .ok doc =>
          let c := collect_from_doc doc include_ignored
          (c.1 ++ rest.1, c.2.1 ++ rest.2.1, c.2.2 ++ rest.2.2)

/-- `transform_from_prompt` (lines 246-277), modulo the I/O glue: the
request object's `files`/`options` unpacking and the call into the
external parser are outside the core, so the model receives the list of
units with their parse outcomes and the `include_ignored` flag directly.
`transform_from_path` (lines 292-318) runs the identical pipeline over
units discovered on disk. -/
def transform_from_prompt (files : List SourceFile) (include_ignored : Bool) :
    OutputEnvelope :=
  let c := collect_units files include_ignored
  { version := "1.0",
    provider := "aws",
    services := organize_by_service c.1 c.2.1,
    ignored := if include_ignored then some (sortBy ignLE c.2.2) else none }

/-! Order lemmas for the Python string comparisons. -/

theorem char_toNat_inj {a b : Char} (h : a.toNat = b.toNat) : a = b :=
  Char.ext (UInt32.ext h)

theorem string_data_inj {a b : String} (h : a.data = b.data) : a = b := by
  cases a; cases b; simp at h; rw [h]

theorem strLEb_total : ∀ x y : List Char, strLEb x y = true ∨ strLEb y x = true := by
  intro x
  induction x with
  | nil => intro y; left; cases y <;> rfl
  | cons a ra ih =>
      intro y
      cases y with
      | nil => right; rfl
      | cons b rb =>
          rcases Nat.lt_trichotomy a.toNat b.toNat with h | h | h
          · left; simp [strLEb, h]
          · rcases ih rb with hl | hr
            · left; simp [strLEb, h, hl]
            · right; simp [strLEb, h, hr]
          · right; simp [strLEb, h]

theorem strLEb_trans :
    ∀ x y z : List Char, strLEb x y = true → strLEb y z = true → strLEb x z = true := by
  intro x
  induction x with
  | nil => intro y z _ _; cases z <;> rfl
  | cons a ra ih =>
      intro y z h1 h2
      cases y with
      | nil => simp [strLEb] at h1
      | cons b rb =>
          cases z with
          | nil => simp [strLEb] at h2
          | cons c rc =>
              simp only [strLEb, Bool.or_eq_true, Bool.and_eq_true, decide_eq_true_eq] at h1 h2 ⊢
              rcases h1 with h1 | ⟨h1e, h1r⟩ <;> rcases h2 with h2 | ⟨h2e, h2r⟩
              · left; omega
              · left; omega
              · left; omega
              · right; exact ⟨by omega, ih rb rc h1r h2r⟩

theorem strLTb_trans :
    ∀ x y z : List Char, strLTb x y = true → strLTb y z = true → strLTb x z = true := by
  intro x
  induction x with
  | nil =>
      intro y z h1 h2
      cases y with
      | nil => simp [strLTb] at h1
      | cons b rb =>
          cases z with
          | nil => simp [strLTb] at h2
          | cons c rc => rfl
  | cons a ra ih =>
      intro y z h1 h2
      cases y with
      | nil => simp [strLTb] at h1
      | cons b rb =>
          cases z with
          | nil => simp [strLTb] at h2
          | cons c rc =>
              simp only [strLTb, Bool.or_eq_true, Bool.and_eq_true, decide_eq_true_eq] at h1 h2 ⊢
              rcases h1 with h1 | ⟨h1e, h1r⟩ <;> rcases h2 with h2 | ⟨h2e, h2r⟩
              · left; omega
              · left; omega
              · left; omega
              · right; exact ⟨by omega, ih rb rc h1r h2r⟩

theorem strLTb_trichotomy :
    ∀ x y : List Char, strLTb x y = true ∨ x = y ∨ strLTb y x = true := by
  intro x
  induction x with
  | nil =>
      intro y
      cases y with
      | nil => right; left; rfl
      | cons b rb => left; rfl
  | cons a ra ih =>
      intro y
      cases y with
      | nil => right; right; rfl
      | cons b rb =>
          rcases Nat.lt_trichotomy a.toNat b.toNat with h | h | h
          · left; simp [strLTb, h]
          · rcases ih rb with hl | he | hr
            · left; simp [strLTb, h, hl]
            · right; left; rw [char_toNat_inj h, he]
            · right; right; simp [strLTb, h, hr]
          · right; right; simp [strLTb, h]

theorem strLT_trichotomy (a b : String) :
    strLT a b = true ∨ a = b ∨ strLT b a = true := by
  rcases strLTb_trichotomy a.data b.data with h | h | h
  · exact Or.inl h
  · exact Or.inr (Or.inl (string_data_inj h))
  · exact Or.inr (Or.inr h)

theorem listLEb_total : ∀ x y : List String, listLEb x y = true ∨ listLEb y x = true := by
  intro x
  induction x with
  | nil => intro y; left; cases y <;> rfl
  | cons a ra ih =>
      intro y
      cases y with
      | nil => right; rfl
      | cons b rb =>
          rcases strLT_trichotomy a b with h | h | h
          · left; simp [listLEb, h]
          · rcases ih rb with hl | hr
            · left; simp [listLEb, h, hl]
            · right; simp [listLEb, h.symm, hr]
          · right; simp [listLEb, h]

theorem listLEb_trans :
    ∀ x y z : List String, listLEb x y = true → listLEb y z = true → listLEb x z = true := by
  intro x
  induction x with
  | nil => intro y z _ _; cases z <;> rfl
  | cons a ra ih =>
      intro y z h1 h2
      cases y with
      | nil => simp [listLEb] at h1
      | cons b rb =>
          cases z with
          | nil => simp [listLEb] at h2
          | cons c rc =>
              simp only [listLEb, Bool.or_eq_true, Bool.and_eq_true, beq_iff_eq] at h1 h2 ⊢
              rcases h1 with h1 | ⟨h1e, h1r⟩ <;> rcases h2 with h2 | ⟨h2e, h2r⟩
              · left; exact strLTb_trans _ _ _ h1 h2
              · left; rw [← h2e]; exact h1
              · left; rw [h1e]; exact h2
              · right; exact ⟨h1e.trans h2e, ih rb rc h1r h2r⟩

theorem entryLE_total (a b : String × Value) : entryLE a b = true ∨ entryLE b a = true :=
  strLEb_total a.1.data b.1.data

theorem entryLE_trans (a b c : String × Value) :
    entryLE a b = true → entryLE b c = true → entryLE a c = true :=
  strLEb_trans a.1.data b.1.data c.1.data

/-! Characterization of `matchExpr` (the `EXPR_RE` model). -/

theorem mem_pyStripList {c : Char} {l : List Char} (h : c ∈ pyStripList l) : c ∈ l := by
  unfold pyStripList at h
  rw [List.mem_reverse] at h
  have h2 := (List.dropWhile_sublist (p := pyWS)).subset h
  rw [List.mem_reverse] at h2
  exact (List.dropWhile_sublist (p := pyWS)).subset h2

theorem matchExpr_inner_no_rbrace {s : String} {inner : String}
    (h : matchExpr s = some inner) : ∀ c ∈ inner.data, c ≠ '}' := by
  unfold matchExpr at h
  split at h
  · split at h
    · split at h
      · rw [Option.some.injEq] at h
        subst h
        intro c hc
        have hmem := mem_pyStripList hc
        have := List.mem_takeWhile_imp hmem
        simpa using this
      · exact absurd h (by simp)
    · exact absurd h (by simp)
  · exact absurd h (by simp)

theorem dropWhile_append_of_all {α : Type} {p : α → Bool} :
    ∀ {pre l : List α}, (∀ c ∈ pre, p c = true) →
      List.dropWhile p (pre ++ l) = List.dropWhile p l := by
  intro pre
  induction pre with
  | nil => intro l _; rfl
  | cons a ra ih =>
      intro l h
      have ha : p a = true := h a (by simp)
      simp only [List.cons_append, List.dropWhile_cons, ha, if_true]
      exact ih (fun c hc => h c (by simp [hc]))

theorem takeWhile_append_of_all {α : Type} {p : α → Bool} :
    ∀ {pre : List α} {c : α} {l : List α},
      (∀ x ∈ pre, p x = true) → p c = false →
      List.takeWhile p (pre ++ c :: l) = pre := by
  intro pre
  induction pre with
  | nil => intro c l _ hc; simp [List.takeWhile_cons, hc]
  | cons a ra ih =>
      intro c l h hc
      have ha : p a = true := h a (by simp)
      simp only [List.cons_append, List.takeWhile_cons, ha, if_true, List.cons.injEq, true_and]
      exact ih (fun x hx => h x (by simp [hx])) hc

theorem matchExpr_of_parts (pre body post : List Char)
    (hpre : ∀ c ∈ pre, pyWS c = true) (hpost : ∀ c ∈ post, pyWS c = true)
    (hbody : ∀ c ∈ body, (c != '}') = true) :
    matchExpr ⟨pre ++ '$' :: '{' :: (body ++ '}' :: post)⟩ = some ⟨pyStripList body⟩ := by
  have hdrop : List.dropWhile pyWS (pre ++ '$' :: '{' :: (body ++ '}' :: post))
      = '$' :: '{' :: (body ++ '}' :: post) := by
    rw [dropWhile_append_of_all hpre]
    simp [List.dropWhile_cons, pyWS]
  have hdrop2 : List.dropWhile (fun c => c != '}') (body ++ '}' :: post) = '}' :: post := by
    rw [dropWhile_append_of_all hbody]
    simp [List.dropWhile_cons]
  have htake : List.takeWhile (fun c => c != '}') (body ++ '}' :: post) = body :=
    takeWhile_append_of_all hbody (by simp)
  have hall : post.all pyWS = true := List.all_eq_true.mpr hpost
  simp only [matchExpr]
  rw [hdrop]
  simp only [hdrop2, htake, hall, if_true]

theorem matchExpr_parts_of_some {s inner : String} (h : matchExpr s = some inner) :
    ∃ pre body post : List Char,
      (∀ c ∈ pre, pyWS c = true) ∧ (∀ c ∈ post, pyWS c = true) ∧
      (∀ c ∈ body, (c != '}') = true) ∧
      s.data = pre ++ '$' :: '{' :: (body ++ '}' :: post) ∧
      inner = ⟨pyStripList body⟩ := by
  unfold matchExpr at h
  split at h
  · rename_i rest heq1
    split at h
    · rename_i tail heq2
      split at h
      · rename_i htail
        rw [Option.some.injEq] at h
        refine ⟨s.data.takeWhile pyWS, rest.takeWhile (fun c => c != '}'), tail,
          ?_, ?_, ?_, ?_, h.symm⟩
        · intro c hc; exact List.mem_takeWhile_imp hc
        · exact List.all_eq_true.mp htail
        · intro c hc
          have := List.mem_takeWhile_imp (p := fun c => c != '}') hc
          simpa using this
        · calc s.data = s.data.takeWhile pyWS ++ s.data.dropWhile pyWS :=
                (List.takeWhile_append_dropWhile pyWS s.data).symm
            _ = s.data.takeWhile pyWS ++ '$' :: '{' :: rest := by rw [heq1]
            _ = s.data.takeWhile pyWS ++ '$' :: '{' ::
                  (rest.takeWhile (fun c => c != '}') ++ '}' :: tail) := by
                rw [show rest.takeWhile (fun c => c != '}') ++ '}' :: tail
                    = rest.takeWhile (fun c => c != '}') ++
                      rest.dropWhile (fun c => c != '}') from by rw [heq2]]
                rw [List.takeWhile_append_dropWhile]
      · exact absurd h (by simp)
    · exact absurd h (by simp)
  · exact absurd h (by simp)

theorem matchExpr_none_of_no_rbrace (s : String) (h : ∀ c ∈ s.data, c ≠ '}') :
    matchExpr s = none := by
  cases hm : matchExpr s with
  | none => rfl
  | some inner =>
      obtain ⟨pre, body, post, _, _, _, hdata, _⟩ := matchExpr_parts_of_some hm
      have hmem : '}' ∈ s.data := by rw [hdata]; simp
      exact absurd rfl (h _ hmem)

/-! Idempotence machinery for the normalizer. -/

theorem vsize_lt_sizeL {x : Value} : ∀ {xs : List Value}, x ∈ xs → vsize x < sizeL xs := by
  intro xs
  induction xs with
  | nil => intro h; cases h
  | cons y ys ih =>
      intro h
      rcases List.mem_cons.mp h with rfl | h
      · simp only [sizeL]; omega
      · have h1 := ih h
        simp only [sizeL]; omega

theorem vsize_lt_sizeE {kv : String × Value} :
    ∀ {kvs : List (String × Value)}, kv ∈ kvs → vsize kv.2 < sizeE kvs := by
  intro kvs
  induction kvs with
  | nil => intro h; cases h
  | cons y ys ih =>
      intro h
      rcases List.mem_cons.mp h with rfl | h
      · simp only [sizeE]; omega
      · have h1 := ih h
        simp only [sizeE]; omega

theorem filter_idem {α : Type} (p : α → Bool) :
    ∀ l : List α, (l.filter p).filter p = l.filter p := by
  intro l
  induction l with
  | nil => rfl
  | cons x xs ih =>
      cases hx : p x <;> simp [List.filter_cons, hx, ih]

theorem filter_keep_map (l : List (String × Value)) :
    (l.map (fun kv => (kv.1, normalize_value kv.2))).filter keepEntry
      = (l.filter keepEntry).map (fun kv => (kv.1, normalize_value kv.2)) := by
  induction l with
  | nil => rfl
  | cons kv rest ih =>
      have hsame : keepEntry (kv.1, normalize_value kv.2) = keepEntry kv := rfl
      cases hk : keepEntry kv <;>
        simp [List.filter_cons, List.map_cons, hsame, hk, ih]

theorem pairwise_map_entryLE {l : List (String × Value)}
    (h : l.Pairwise (fun a b => entryLE a b = true)) :
    (l.map (fun kv => (kv.1, normalize_value kv.2))).Pairwise
      (fun a b => entryLE a b = true) := by
  rw [List.pairwise_map]
  exact h.imp (fun hab => hab)

theorem normalize_idem_bounded :
    ∀ n : Nat, ∀ v : Value, vsize v ≤ n →
      normalize_value (normalize_value v) = normalize_value v := by
  intro n
  induction n with
  | zero =>
      intro v h
      exact absurd h (by have := vsize_pos v; omega)
  | succ n ih =>
      intro v hv
      cases v with
      | vnull => rfl
      | vbool b => rfl
      | vint m => rfl
      | vstr s =>
          rw [normalize_vstr s]
          cases hm : matchExpr s with
          | none => rw [normalize_vstr s, hm]
          | some inner =>
              have hnone : matchExpr inner = none :=
                matchExpr_none_of_no_rbrace inner (matchExpr_inner_no_rbrace hm)
              rw [normalize_vdict]
              simp [sortBy, insSorted, keepEntry, normalize_vstr, hnone]
      | vlist xs =>
          rw [normalize_vlist, normalize_vlist, List.map_map]
          congr 1
          apply List.map_congr_left
          intro x hx
          have hlt : vsize x < sizeL xs := vsize_lt_sizeL hx
          have hb : sizeL xs + 1 ≤ n + 1 := by
            have hs : vsize (.vlist xs) = sizeL xs + 1 := by simp [vsize]
            omega
          show normalize_value (normalize_value x) = normalize_value x
          exact ih x (by omega)
      | vdict kvs =>
          rw [normalize_vdict, normalize_vdict]
          congr 1
          have hLsorted : ((sortBy entryLE kvs).filter keepEntry).Pairwise
              (fun a b => entryLE a b = true) :=
            (pairwise_sortBy entryLE_total entryLE_trans kvs).filter _
          rw [sortBy_of_pairwise (pairwise_map_entryLE hLsorted)]
          rw [filter_keep_map, filter_idem, List.map_map]
          apply List.map_congr_left
          intro kv hkv
          have hkv1 : kv ∈ kvs :=
            (mem_sortBy entryLE kv kvs).mp (List.mem_of_mem_filter hkv)
          have h1 : vsize kv.2 < sizeE kvs := vsize_lt_sizeE hkv1
          have h2 : sizeE kvs + 1 ≤ n + 1 := by
            have hs : vsize (.vdict kvs) = sizeE kvs + 1 := by simp [vsize]
            omega
          show (kv.1, normalize_value (normalize_value kv.2)) = (kv.1, normalize_value kv.2)
          rw [ih kv.2 (by omega)]

/-- A string assembled as whitespace, `$`, `\x7b`, a brace-free body,
`\x7d`, whitespace is matched by `EXPR_RE`, with the stripped body as the
captured expression. -/
theorem matchExpr_of_string_parts (pre body post : String)
    (hpre : ∀ c ∈ pre.data, pyWS c = true) (hpost : ∀ c ∈ post.data, pyWS c = true)
    (hbody : ∀ c ∈ body.data, c ≠ '}') :
    matchExpr (pre ++ "$\x7b" ++ body ++ "\x7d" ++ post) = some (pyStrip body) := by
  have hob : ("$\x7b" : String).data = ['$', '{'] := rfl
  have hcb : ("\x7d" : String).data = ['}'] := rfl
  have hdata : (pre ++ "$\x7b" ++ body ++ "\x7d" ++ post).data
      = pre.data ++ '$' :: '{' :: (body.data ++ '}' :: post.data) := by
    simp [String.data_append, hob, hcb]
  have hs : (pre ++ "$\x7b" ++ body ++ "\x7d" ++ post)
      = (⟨pre.data ++ '$' :: '{' :: (body.data ++ '}' :: post.data)⟩ : String) :=
    string_data_inj hdata
  rw [hs, matchExpr_of_parts pre.data body.data post.data hpre hpost
    (fun c hc => by simpa using hbody c hc)]
  rfl

/-!
## Claims
-/

/-- C2: the value normalizer is idempotent — for every (arbitrarily
nested) parsed value `v`, `normalize_value (normalize_value v)` equals
`normalize_value v`. -/
theorem c2_normalize_value_idempotent (v : Value) :
    normalize_value (normalize_value v) = normalize_value v :=
  normalize_idem_bounded (vsize v) v le_rfl

/-- C7: `normalize_value` rewrites a string that is exactly one
interpolation span (optionally surrounded by whitespace, nothing else in
the string) into the one-key mapping tagging the inner expression trimmed
of whitespace, and leaves every other string unchanged. -/
theorem c7_expression_detection (s : String) :
    (∀ pre body post : String,
      (∀ c ∈ pre.data, pyWS c = true) → (∀ c ∈ post.data, pyWS c = true) →
      (∀ c ∈ body.data, c ≠ '}') →
      s = pre ++ "$\x7b" ++ body ++ "\x7d" ++ post →
      normalize_value (.vstr s) = .vdict [("$expr", .vstr (pyStrip body))]) ∧
    ((¬ ∃ pre body post : String,
        (∀ c ∈ pre.data, pyWS c = true) ∧ (∀ c ∈ post.data, pyWS c = true) ∧
        (∀ c ∈ body.data, c ≠ '}') ∧
        s = pre ++ "$\x7b" ++ body ++ "\x7d" ++ post) →
      normalize_value (.vstr s) = .vstr s) := by
  constructor
  · intro pre body post hpre hpost hbody heq
    rw [normalize_vstr, heq, matchExpr_of_string_parts pre body post hpre hpost hbody]
  · intro hne
    rw [normalize_vstr]
    cases hm : matchExpr s with
    | none => rfl
    | some inner =>
        exfalso
        obtain ⟨pre, body, post, hpre, hpost, hbody, hdata, _⟩ := matchExpr_parts_of_some hm
        apply hne
        refine ⟨⟨pre⟩, ⟨body⟩, ⟨post⟩, hpre, hpost,
          fun c hc => by simpa using hbody c hc, ?_⟩
        apply string_data_inj
        rw [hdata]
        have hob : ("$\x7b" : String).data = ['$', '{'] := rfl

        have hcb : ("\x7d" : String).data = ['}'] := rfl
        simp [String.data_append, hob, hcb]

/-- C7 witness: `"${aws_instance.web.id}"` becomes the tagged expression
with inner text `aws_instance.web.id`, and `"prefix-${var.x}-suffix"`
passes through unchanged. -/
theorem c7_expression_detection_w :
    normalize_value (.vstr "${aws_instance.web.id}")
        = .vdict [("$expr", .vstr "aws_instance.web.id")] ∧
    normalize_value (.vstr "prefix-${var.x}-suffix")
        = .vstr "prefix-${var.x}-suffix" := by
  constructor
  · exact ((c7_expression_detection "${aws_instance.web.id}").1
      "" "aws_instance.web.id" "" (by decide) (by decide) (by decide) (by decide)).trans
      (by decide)
  · apply (c7_expression_detection "prefix-${var.x}-suffix").2
    rintro ⟨pre, body, post, hpre, hpost, hbody, heq⟩
    have hsome := matchExpr_of_string_parts pre body post hpre hpost hbody
    rw [← heq] at hsome
    have hnone : matchExpr "prefix-${var.x}-suffix" = none := by decide
    rw [hnone] at hsome
    exact Option.noConfusion hsome

/-- C3: a resource (or data) section given as a direct mapping
`\x7btype: \x7bname: body\x7d\x7d` and as a sequence of single-entry
mappings yields identical collected output; a type appearing in several
sequence entries has every instance visited (none shadowed); and the same
mapping-or-sequence equivalence holds one level down for the
instance-name-to-body blocks. -/
theorem c3_shape_equivalence (t : String) (blocks : Value)
    (kvs1 kvs2 nb1 nb2 : List (String × Value)) (incl : Bool) :
    collect_from_doc [("resource", .vdict [(t, blocks)])] incl =
      collect_from_doc [("resource", .vlist [.vdict [(t, blocks)]])] incl ∧
    collect_from_doc [("data", .vdict [(t, blocks)])] incl =
      collect_from_doc [("data", .vlist [.vdict [(t, blocks)]])] incl ∧
    iter_resource_entries (some (.vlist [.vdict kvs1, .vdict kvs2])) = kvs1 ++ kvs2 ∧
    collect_from_doc [("resource", .vdict [(t, .vdict nb1)])] incl =
      collect_from_doc [("resource", .vdict [(t, .vlist [.vdict nb1])])] incl ∧
    iter_name_bodies (.vlist [.vdict nb1, .vdict nb2]) = nb1 ++ nb2 := by
  refine ⟨rfl, rfl, ?_, ?_, ?_⟩
  · simp [iter_resource_entries]
  · simp [collect_from_doc, dictGet, collect_pairs, iter_name_bodies]
  · simp [iter_name_bodies]

/-- C10: an instance-block collection that is neither a mapping nor a
sequence produces nothing from `collect_from_doc` — no record and no
diagnostic, even with diagnostics requested — and a non-mapping element of
a section sequence is skipped silently at either nesting level. -/
theorem c10_nonmapping_entries_vanish (t : String) (b nb : Value)
    (l1 l2 : List Value) (incl : Bool) :
    (Value.isMapping b = false → Value.isSequence b = false →
      collect_from_doc [("resource", .vdict [(t, b)])] incl = ([], [], [])) ∧
    (Value.isMapping nb = false →
      iter_resource_entries (some (.vlist (l1 ++ nb :: l2))) =
        iter_resource_entries (some (.vlist (l1 ++ l2)))) ∧
    (Value.isMapping nb = false →
      iter_name_bodies (.vlist (l1 ++ nb :: l2)) = iter_name_bodies (.vlist (l1 ++ l2))) := by
  refine ⟨?_, ?_, ?_⟩
  · intro hm hs
    cases b <;> simp_all [Value.isMapping, Value.isSequence] <;>
      simp [collect_from_doc, dictGet, List.find?, iter_resource_entries,
        iter_name_bodies, collect_pairs, collect_bodies]
  · intro hm
    cases nb <;> simp_all [Value.isMapping] <;>
      simp [iter_resource_entries, List.flatMap_append]
  · intro hm
    cases nb <;> simp_all [Value.isMapping] <;>
      simp [iter_name_bodies, List.flatMap_append]

/-- C10 witness: a string-valued instance block and a numeric sequence
element vanish silently even with diagnostics on. -/
theorem c10_nonmapping_entries_vanish_w :
    collect_from_doc [("resource", .vdict [("aws_instance", .vstr "oops")])] true
        = ([], [], []) ∧
    iter_resource_entries (some (.vlist ([] ++ Value.vint 5 :: [.vdict [("a", .vnull)]]))) =
      iter_resource_entries (some (.vlist ([] ++ [.vdict [("a", .vnull)]]))) ∧
    iter_name_bodies (.vlist ([.vdict [("web", .vnull)]] ++ Value.vstr "zz" :: [])) =
      iter_name_bodies (.vlist ([.vdict [("web", .vnull)]] ++ [])) := by
  refine ⟨(c10_nonmapping_entries_vanish "aws_instance" (.vstr "oops") .vnull [] [] true).1
      (by decide) (by decide),
    (c10_nonmapping_entries_vanish "x" .vnull (.vint 5) [] [.vdict [("a", .vnull)]] true).2.1
      (by decide),
    (c10_nonmapping_entries_vanish "x" .vnull (.vstr "zz") [.vdict [("web", .vnull)]] [] true).2.2
      (by decide)⟩

/-! `popKey` bookkeeping for the metadata-isolation claim. -/

theorem popKey_snd_mem {k : String} {kv : String × Value} :
    ∀ {l : List (String × Value)}, kv ∈ (popKey k l).2 → kv ∈ l := by
  intro l
  induction l with
  | nil => intro h; simp [popKey] at h
  | cons y ys ih =>
      obtain ⟨k2, v2⟩ := y
      intro h
      simp only [popKey] at h
      split at h
      · exact List.mem_cons_of_mem _ h
      · rcases List.mem_cons.mp h with rfl | h2
        · exact List.mem_cons_self _ _
        · exact List.mem_cons_of_mem _ (ih h2)

theorem popKey_keys_subset {k x : String} {l : List (String × Value)}
    (h : x ∈ (popKey k l).2.map Prod.fst) : x ∈ l.map Prod.fst := by
  rw [List.mem_map] at h
  obtain ⟨kv, hkv, rfl⟩ := h
  exact List.mem_map.mpr ⟨kv, popKey_snd_mem hkv, rfl⟩

theorem popKey_removes {k : String} :
    ∀ {l : List (String × Value)}, (l.map Prod.fst).Nodup →
      k ∉ (popKey k l).2.map Prod.fst := by
  intro l
  induction l with
  | nil => intro _ h; simp [popKey] at h
  | cons y ys ih =>
      obtain ⟨k2, v2⟩ := y
      intro hnodup h
      rw [List.map_cons, List.nodup_cons] at hnodup
      simp only [popKey] at h
      split at h
      · rename_i heq
        rw [beq_iff_eq] at heq
        subst heq
        exact hnodup.1 h
      · rename_i hne
        rw [List.map_cons, List.mem_cons] at h
        rcases h with rfl | h
        · rw [beq_iff_eq] at hne; exact hne rfl
        · exact ih hnodup.2 h

theorem popKey_nodup {k : String} :
    ∀ {l : List (String × Value)}, (l.map Prod.fst).Nodup →
      ((popKey k l).2.map Prod.fst).Nodup := by
  intro l
  induction l with
  | nil => intro _; simp [popKey]
  | cons y ys ih =>
      obtain ⟨k2, v2⟩ := y
      intro hnodup
      rw [List.map_cons, List.nodup_cons] at hnodup
      simp only [popKey]
      split
      · exact hnodup.2
      · rw [List.map_cons, List.nodup_cons]
        exact ⟨fun h => hnodup.1 (popKey_keys_subset h), ih hnodup.2⟩

/-- After `extract_meta`, the remaining attributes contain none of the
four extracted keys (Python dicts never repeat a key, whence the `Nodup`
hypothesis). -/
theorem extract_meta_attrs_keys (l : List (String × Value))
    (h : (l.map Prod.fst).Nodup) :
    "count" ∉ (extract_meta l).2.2.2.2.map Prod.fst ∧
    "for_each" ∉ (extract_meta l).2.2.2.2.map Prod.fst ∧
    "depends_on" ∉ (extract_meta l).2.2.2.2.map Prod.fst ∧
    "provider" ∉ (extract_meta l).2.2.2.2.map Prod.fst := by
  have hattrs : (extract_meta l).2.2.2.2
      = (popKey "provider" (popKey "depends_on"
          (popKey "for_each" (popKey "count" l).2).2).2).2 := rfl
  have h1 := popKey_removes (k := "count") h
  have hn1 := popKey_nodup (k := "count") h
  have h2 := popKey_removes (k := "for_each") hn1
  have hn2 := popKey_nodup (k := "for_each") hn1
  have h3 := popKey_removes (k := "depends_on") hn2
  have hn3 := popKey_nodup (k := "depends_on") hn2
  have h4 := popKey_removes (k := "provider") hn3
  rw [hattrs]
  refine ⟨?_, ?_, ?_, h4⟩
  · exact fun hc => h1 (popKey_keys_subset (popKey_keys_subset (popKey_keys_subset hc)))
  · exact fun hc => h2 (popKey_keys_subset (popKey_keys_subset hc))
  · exact fun hc => h3 (popKey_keys_subset hc)

theorem mem_keys_norm_attrs {k : String} {attrs : List (String × Value)}
    (h : k ∈ (sortBy entryLE (attrs.map fun kv =>
      (kv.1, normalize_value kv.2))).map Prod.fst) :
    k ∈ attrs.map Prod.fst := by
  rw [List.mem_map] at h
  obtain ⟨kv, hkv, rfl⟩ := h
  have h2 := (mem_sortBy _ _ _).mp hkv
  rw [List.mem_map] at h2
  obtain ⟨kv0, hkv0, rfl⟩ := h2
  exact List.mem_map.mpr ⟨kv0, hkv0, rfl⟩

/-- C5: a record accepted by the Record Builder never carries `count`,
`for_each`, `depends_on` or `provider` among its `attributes` keys,
whether or not they were present in the source body (whose keys, coming
from a Python dict, are distinct). -/
theorem c5_metadata_isolation (kind rtype name : String)
    (bodyEntries : List (String × Value)) (rec : NormalizedRecord)
    (hnodup : (bodyEntries.map Prod.fst).Nodup)
    (hmk : make_record kind rtype name (.vdict bodyEntries) = (some rec, none)) :
    "count" ∉ rec.attributes.map Prod.fst ∧
    "for_each" ∉ rec.attributes.map Prod.fst ∧
    "depends_on" ∉ rec.attributes.map Prod.fst ∧
    "provider" ∉ rec.attributes.map Prod.fst := by
  simp only [make_record] at hmk
  split at hmk
  · exact absurd hmk (by simp)
  · split at hmk
    · exact absurd hmk (by simp)
    · split at hmk
      · exact absurd hmk (by simp)
      · rw [Prod.mk.injEq, Option.some.injEq] at hmk
        obtain ⟨hrec, -⟩ := hmk
        subst hrec
        obtain ⟨k1, k2, k3, k4⟩ := extract_meta_attrs_keys bodyEntries hnodup
        exact ⟨fun hc => k1 (mem_keys_norm_attrs hc),
          fun hc => k2 (mem_keys_norm_attrs hc),
          fun hc => k3 (mem_keys_norm_attrs hc),
          fun hc => k4 (mem_keys_norm_attrs hc)⟩

/-- The record produced for the C5 witness body. -/
def c5WitnessRecord : NormalizedRecord :=
  { address := "aws_instance.web", type := "aws_instance", name := "web",
    service := "ec2", mode := "resource", provider_alias := some "aws.west",
    depends_on := [], count := some (.vint 2),
    for_each := some (.vdict [("$expr", .vstr "var.xs")]),
    attributes := [("ami", .vstr "y")] }

/-- C5 witness: a body declaring all four metadata keys plus `ami` yields
a record whose attributes contain none of the four. -/
theorem c5_metadata_isolation_w :
    "count" ∉ (c5WitnessRecord.attributes.map Prod.fst) ∧
    "for_each" ∉ (c5WitnessRecord.attributes.map Prod.fst) ∧
    "depends_on" ∉ (c5WitnessRecord.attributes.map Prod.fst) ∧
    "provider" ∉ (c5WitnessRecord.attributes.map Prod.fst) :=
  c5_metadata_isolation "resource" "aws_instance" "web"
    [("count", .vint 2), ("for_each", .vstr "${var.xs}"), ("depends_on", .vlist []),
     ("provider", .vstr "aws.west"), ("ami", .vstr "y")]
    c5WitnessRecord (by decide) (by decide)

/-- C4 (divergence evidence): `make_record` keeps a top-level
`provisioner` key in `attributes`.  `normalize_value` drops
`provisioner`/`connection` keys only inside nested mapping values, and
`make_record` applies it to each attribute value rather than to the
attribute mapping itself, so body-level provisioner/connection blocks —
the place HCL actually puts them — survive into the record.  The second
conjunct shows the drop does happen one level down. -/
theorem c4_top_level_provisioner_survives :
    (make_record "resource" "aws_instance" "web"
      (.vdict [("provisioner", .vdict [("local-exec", .vnull)])])).1.map
        (fun rec => rec.attributes.map Prod.fst) = some ["provisioner"] ∧
    normalize_value (.vdict [("a", .vdict [("provisioner", .vnull), ("x", .vint 1)])]) =
      .vdict [("a", .vdict [("x", .vint 1)])] := by decide

/-- C6 counterexample: with `provider = ""` the alias is present (it is a
string, so `extract_meta` accepts it) and does not belong to the `aws`
namespace, yet `make_record` produces a record instead of
`non_aws_provider_alias` — Python's truthiness test skips the empty
alias. -/
theorem c6_validation_order_cex :
    (extract_meta [("provider", .vstr "")]).2.2.2.1 = some "" ∧
    strStartsWith "" "aws" = false ∧
    make_record "resource" "aws_instance" "web" (.vdict [("provider", .vstr "")]) =
      (some { address := "aws_instance.web", type := "aws_instance", name := "web",
              service := "ec2", mode := "resource", provider_alias := none,
              depends_on := [], count := none, for_each := none, attributes := [] },
       none) := by decide

/-- C6 (amended): `make_record` short-circuits in source order — type not
in the `aws_` namespace → `non_aws_provider`; in-namespace type unmapped
by the classification table → `unsupported_service`; non-mapping body →
`malformed_block`; after extraction, a present NON-EMPTY provider alias
outside the `aws` namespace → `non_aws_provider_alias` (an empty alias is
falsy and treated as absent); otherwise exactly one record carrying the
table's service. -/
theorem c6_validation_order (kind rtype name : String) (body : Value) :
    (strStartsWith rtype "aws_" = false →
      make_record kind rtype name body = (none, some .non_aws_provider)) ∧
    (strStartsWith rtype "aws_" = true → service_for_type rtype = none →
      make_record kind rtype name body = (none, some .unsupported_service)) ∧
    (∀ service, strStartsWith rtype "aws_" = true →
      service_for_type rtype = some service → Value.isMapping body = false →
      make_record kind rtype name body = (none, some .malformed_block)) ∧
    (∀ service bodyEntries p, strStartsWith rtype "aws_" = true →
      service_for_type rtype = some service → body = .vdict bodyEntries →
      (extract_meta bodyEntries).2.2.2.1 = some p → p ≠ "" →
      strStartsWith p "aws" = false →
      make_record kind rtype name body = (none, some .non_aws_provider_alias)) ∧
    (∀ service bodyEntries, strStartsWith rtype "aws_" = true →
      service_for_type rtype = some service → body = .vdict bodyEntries →
      (∀ p, (extract_meta bodyEntries).2.2.2.1 = some p → p ≠ "" →
        strStartsWith p "aws" = true) →
      (make_record kind rtype name body).2 = none ∧
      (make_record kind rtype name body).1.map (fun rec => rec.service) = some service) := by
  refine ⟨?_, ?_, ?_, ?_, ?_⟩
  · intro h
    simp [make_record, h]
  · intro h1 h2
    simp [make_record, h1, h2]
  · intro service h1 h2 h3
    cases body <;> simp_all [Value.isMapping] <;> simp [make_record, h1, h2]
  · intro service bodyEntries p h1 h2 hb hp hne hns
    subst hb
    have halias :
        (match (extract_meta bodyEntries).2.2.2.1 with
          | some q => !(q == "") && !(strStartsWith q "aws")
          | none => false) = true := by
      rw [hp]
      simp [hne, hns]
    simp [make_record, h1, h2, halias]
  · intro service bodyEntries h1 h2 hb hp
    subst hb
    have halias :
        (match (extract_meta bodyEntries).2.2.2.1 with
          | some q => !(q == "") && !(strStartsWith q "aws")
          | none => false) = false := by
      cases hq : (extract_meta bodyEntries).2.2.2.1 with
      | none => rfl
      | some q =>
          by_cases hqe : q = ""
          · simp [hqe]
          · simp [hqe, hp q hq hqe]
    constructor <;> simp [make_record, h1, h2, halias]

/-- C6 witness: one concrete input per validation branch, in order. -/
theorem c6_validation_order_w :
    make_record "resource" "azurerm_vm" "bad" (.vdict []) = (none, some .non_aws_provider) ∧
    make_record "resource" "aws_unknown_widget" "x" (.vdict [])
      = (none, some .unsupported_service) ∧
    make_record "resource" "aws_instance" "web" (.vstr "oops")
      = (none, some .malformed_block) ∧
    make_record "resource" "aws_instance" "web" (.vdict [("provider", .vstr "google.eu")])
      = (none, some .non_aws_provider_alias) ∧
    (make_record "resource" "aws_s3_bucket" "b" (.vdict [])).1.map
      (fun rec => rec.service) = some "s3" := by
  refine ⟨(c6_validation_order "resource" "azurerm_vm" "bad" (.vdict [])).1 (by decide),
    (c6_validation_order "resource" "aws_unknown_widget" "x" (.vdict [])).2.1
      (by decide) (by decide),
    (c6_validation_order "resource" "aws_instance" "web" (.vstr "oops")).2.2.1
      "ec2" (by decide) (by decide) (by decide),
    (c6_validation_order "resource" "aws_instance" "web"
        (.vdict [("provider", .vstr "google.eu")])).2.2.2.1
      "ec2" [("provider", .vstr "google.eu")] "google.eu"
      (by decide) (by decide) rfl (by decide) (by decide) (by decide),
    ((c6_validation_order "resource" "aws_s3_bucket" "b" (.vdict [])).2.2.2.2 "s3" []
      (by decide) (by decide) rfl
      (fun p hp _ => by
        rw [show (extract_meta ([] : List (String × Value))).2.2.2.1 = none from rfl] at hp
        exact Option.noConfusion hp)).2⟩

theorem popKey_fst (k : String) :
    ∀ l : List (String × Value), (popKey k l).1 = dictGet l k := by
  intro l
  induction l with
  | nil => rfl
  | cons y ys ih =>
      obtain ⟨k2, v2⟩ := y
      by_cases h : (k2 == k) = true
      · simp [popKey, dictGet, List.find?, h]
      · simp only [popKey, dictGet, List.find?, h, Bool.false_eq_true, if_false]
        exact ih

theorem dictGet_popKey {k k2 : String} (hne : k2 ≠ k) :
    ∀ l : List (String × Value), dictGet (popKey k l).2 k2 = dictGet l k2 := by
  intro l
  induction l with
  | nil => rfl
  | cons y ys ih =>
      obtain ⟨k3, v3⟩ := y
      by_cases h : (k3 == k) = true
      · have h3 : (k3 == k2) = false := by
          rw [beq_iff_eq] at h
          subst h
          simpa using fun he => hne he.symm
        simp [popKey, dictGet, List.find?, h, h3]
      · by_cases h4 : (k3 == k2) = true
        · simp [popKey, dictGet, List.find?, h, h4]
        · simp only [popKey, h, Bool.false_eq_true, if_false, dictGet, List.find?, h4]
          exact ih

/-- C8: `extract_meta` puts a string-valued `count`/`for_each` through the
expression-detection rule and passes any other present (non-null) value
through as-is, yielding null when the key is absent (a null binding is
what `pop` returns for an absent key, so it collapses into absence);
normalizes `depends_on` to a sequence of strings — a sequence
element-wise via `str()`, a scalar to a one-element sequence, absence to
the empty sequence; and accepts `provider` as `provider_alias` exactly
when it is a string. -/
theorem c8_extract_meta_contract (attrs : List (String × Value)) :
    ((dictGet attrs "count" = none ∨ dictGet attrs "count" = some .vnull) →
      (extract_meta attrs).1 = none) ∧
    (∀ s, dictGet attrs "count" = some (.vstr s) →
      (extract_meta attrs).1 = some (match matchExpr s with
        | some inner => .vdict [("$expr", .vstr inner)]
        | none => .vstr s)) ∧
    (∀ v, dictGet attrs "count" = some v → v ≠ .vnull → Value.isString v = false →
      (extract_meta attrs).1 = some v) ∧
    ((dictGet attrs "for_each" = none ∨ dictGet attrs "for_each" = some .vnull) →
      (extract_meta attrs).2.1 = none) ∧
    (∀ s, dictGet attrs "for_each" = some (.vstr s) →
      (extract_meta attrs).2.1 = some (match matchExpr s with
        | some inner => .vdict [("$expr", .vstr inner)]
        | none => .vstr s)) ∧
    (∀ v, dictGet attrs "for_each" = some v → v ≠ .vnull → Value.isString v = false →
      (extract_meta attrs).2.1 = some v) ∧
    ((dictGet attrs "depends_on" = none ∨ dictGet attrs "depends_on" = some .vnull) →
      (extract_meta attrs).2.2.1 = []) ∧
    (∀ xs, dictGet attrs "depends_on" = some (.vlist xs) →
      (extract_meta attrs).2.2.1 = xs.map pyStr) ∧
    (∀ v, dictGet attrs "depends_on" = some v → v ≠ .vnull → Value.isSequence v = false →
      (extract_meta attrs).2.2.1 = [pyStr v]) ∧
    (∀ s, dictGet attrs "provider" = some (.vstr s) →
      (extract_meta attrs).2.2.2.1 = some s) ∧
    (dictGet attrs "provider" = none → (extract_meta attrs).2.2.2.1 = none) ∧
    (∀ v, dictGet attrs "provider" = some v → Value.isString v = false →
      (extract_meta attrs).2.2.2.1 = none) := by
  have hc : (popKey "count" attrs).1 = dictGet attrs "count" := popKey_fst _ _
  have hf : (popKey "for_each" (popKey "count" attrs).2).1 = dictGet attrs "for_each" := by
    rw [popKey_fst, dictGet_popKey (by decide)]
  have hd : (popKey "depends_on" (popKey "for_each" (popKey "count" attrs).2).2).1
      = dictGet attrs "depends_on" := by
    rw [popKey_fst, dictGet_popKey (by decide), dictGet_popKey (by decide)]
  have hpp : (popKey "provider" (popKey "depends_on"
      (popKey "for_each" (popKey "count" attrs).2).2).2).1
      = dictGet attrs "provider" := by
    rw [popKey_fst, dictGet_popKey (by decide), dictGet_popKey (by decide),
      dictGet_popKey (by decide)]
  refine ⟨?_, ?_, ?_, ?_, ?_, ?_, ?_, ?_, ?_, ?_, ?_, ?_⟩
  · rintro (h | h) <;> (simp only [extract_meta]; rw [hc, h])
  · intro s h
    simp only [extract_meta]
    rw [hc, h]
    rfl
  · intro v h hnn hns
    simp only [extract_meta]
    rw [hc, h]
    cases v with
    | vnull => exact absurd rfl hnn
    | vstr s => simp [Value.isString] at hns
    | vbool b => rfl
    | vint n => rfl
    | vlist xs => rfl
    | vdict kvs => rfl
  · rintro (h | h) <;> (simp only [extract_meta]; rw [hf, h])
  · intro s h
    simp only [extract_meta]
    rw [hf, h]
    rfl
  · intro v h hnn hns
    simp only [extract_meta]
    rw [hf, h]
    cases v with
    | vnull => exact absurd rfl hnn
    | vstr s => simp [Value.isString] at hns
    | vbool b => rfl
    | vint n => rfl
    | vlist xs => rfl
    | vdict kvs => rfl
  · rintro (h | h) <;> (simp only [extract_meta]; rw [hd, h])
  · intro xs h
    simp only [extract_meta]
    rw [hd, h]
  · intro v h hnn hns
    simp only [extract_meta]
    rw [hd, h]
    cases v with
    | vnull => exact absurd rfl hnn
    | vlist xs => simp [Value.isSequence] at hns
    | vstr s => rfl
    | vbool b => rfl
    | vint n => rfl
    | vdict kvs => rfl
  · intro s h
    simp only [extract_meta]
    rw [hpp, h]
  · intro h
    simp only [extract_meta]
    rw [hpp, h]
  · intro v h hns
    simp only [extract_meta]
    rw [hpp, h]
    cases v with
    | vstr s => simp [Value.isString] at hns
    | vnull => rfl
    | vbool b => rfl
    | vint n => rfl
    | vlist xs => rfl
    | vdict kvs => rfl

/-- C8 witness: one attribute mapping exercising a string `count`, a
numeric `for_each`, a mixed `depends_on` sequence and a string
`provider`. -/
theorem c8_extract_meta_contract_w :
    (extract_meta [("count", .vstr "${var.n}"), ("for_each", .vint 3),
        ("depends_on", .vlist [.vstr "aws_vpc.main", .vint 7]),
        ("provider", .vstr "aws.west"), ("ami", .vstr "x")]).1
      = some (.vdict [("$expr", .vstr "var.n")]) ∧
    (extract_meta [("count", .vstr "${var.n}"), ("for_each", .vint 3),
        ("depends_on", .vlist [.vstr "aws_vpc.main", .vint 7]),
        ("provider", .vstr "aws.west"), ("ami", .vstr "x")]).2.1
      = some (.vint 3) ∧
    (extract_meta [("count", .vstr "${var.n}"), ("for_each", .vint 3),
        ("depends_on", .vlist [.vstr "aws_vpc.main", .vint 7]),
        ("provider", .vstr "aws.west"), ("ami", .vstr "x")]).2.2.1
      = ["aws_vpc.main", "7"] ∧
    (extract_meta [("count", .vstr "${var.n}"), ("for_each", .vint 3),
        ("depends_on", .vlist [.vstr "aws_vpc.main", .vint 7]),
        ("provider", .vstr "aws.west"), ("ami", .vstr "x")]).2.2.2.1
      = some "aws.west" := by
  refine ⟨((c8_extract_meta_contract _).2.1 "${var.n}" (by decide)).trans (by decide),
    (c8_extract_meta_contract _).2.2.2.2.2.1 (.vint 3) (by decide) (by decide) (by decide),
    ((c8_extract_meta_contract _).2.2.2.2.2.2.2.1
      [.vstr "aws_vpc.main", .vint 7] (by decide)).trans (by decide),
    (c8_extract_meta_contract _).2.2.2.2.2.2.2.2.2.1 "aws.west" (by decide)⟩

theorem recLE_total (a b : NormalizedRecord) : recLE a b = true ∨ recLE b a = true :=
  listLEb_total _ _

theorem recLE_trans (a b c : NormalizedRecord) :
    recLE a b = true → recLE b c = true → recLE a c = true :=
  listLEb_trans _ _ _

theorem ignLE_total (a b : IgnoredItem) : ignLE a b = true ∨ ignLE b a = true :=
  listLEb_total _ _

theorem ignLE_trans (a b c : IgnoredItem) :
    ignLE a b = true → ignLE b c = true → ignLE a c = true :=
  listLEb_trans _ _ _

/-- C9: the services mapping has exactly the five keys `ec2`, `iam`,
`rds`, `s3`, `vpc` in that fixed alphabetical order — each present even
when its bucket is empty — and within every bucket the `resources` and
`data_sources` sequences are sorted ascending by the tuple
`(type, name, address)`. -/
theorem c9_service_buckets (resources datas : List NormalizedRecord) :
    ((organize_by_service resources datas).map Prod.fst
        = ["ec2", "iam", "rds", "s3", "vpc"]) ∧
    (∀ k b, (k, b) ∈ organize_by_service resources datas →
      b.resources.Pairwise (fun a c => recLE a c = true) ∧
      b.data_sources.Pairwise (fun a c => recLE a c = true)) := by
  constructor
  · rfl
  · intro k b hmem
    simp only [organize_by_service, List.mem_map] at hmem
    obtain ⟨key, hkey, heq⟩ := hmem
    rw [Prod.mk.injEq] at heq
    obtain ⟨-, hb⟩ := heq
    subst hb
    exact ⟨pairwise_sortBy recLE_total recLE_trans _,
      pairwise_sortBy recLE_total recLE_trans _⟩

def c9RecA : NormalizedRecord :=
  { address := "aws_instance.a", type := "aws_instance", name := "a",
    service := "ec2", mode := "resource", provider_alias := none,
    depends_on := [], count := none, for_each := none, attributes := [] }

def c9RecB : NormalizedRecord :=
  { address := "aws_instance.b", type := "aws_instance", name := "b",
    service := "ec2", mode := "resource", provider_alias := none,
    depends_on := [], count := none, for_each := none, attributes := [] }

/-- C9 witness: records named `b` then `a` of the same type land in the
`ec2` bucket sorted as `a`, `b`, and all five keys appear in order even
though four buckets are empty. -/
theorem c9_service_buckets_w :
    ((organize_by_service [c9RecB, c9RecA] []).map Prod.fst
        = ["ec2", "iam", "rds", "s3", "vpc"]) ∧
    (ServiceBucket.mk [c9RecA, c9RecB] []).resources.Pairwise
      (fun a c => recLE a c = true) ∧
    sort_records [c9RecB, c9RecA] = [c9RecA, c9RecB] :=
  ⟨(c9_service_buckets [c9RecB, c9RecA] []).1,
    ((c9_service_buckets [c9RecB, c9RecA] []).2 "ec2" ⟨[c9RecA, c9RecB], []⟩
      (by decide)).1,
    by decide⟩

/-! Permutation machinery for the determinism claim. -/

/-- Records contributed by one unit in the `transform_from_prompt`
loop. -/
def unitRes (include_ignored : Bool) (f : SourceFile) : List NormalizedRecord :=
  match f.parsed with
  | .error _ => []
  | .ok doc => (collect_from_doc doc include_ignored).1

def unitDatas (include_ignored : Bool) (f : SourceFile) : List NormalizedRecord :=
  match f.parsed with
  | .error _ => []
  | .ok doc => (collect_from_doc doc include_ignored).2.1

def unitIgn (include_ignored : Bool) (f : SourceFile) : List IgnoredItem :=
  match f.parsed with
  | .error e =>
      if include_ignored then
        [{ kind := "file", type := none, name := none, path := some f.path,
           message := some e, reason := "parse_error" }]
      else []
  | .ok doc => (collect_from_doc doc include_ignored).2.2

theorem collect_units_eq (files : List SourceFile) (incl : Bool) :
    collect_units files incl =
      (files.flatMap (unitRes incl), files.flatMap (unitDatas incl),
        files.flatMap (unitIgn incl)) := by
  induction files with
  | nil => rfl
  | cons f fs ih =>
      simp only [collect_units, ih]
      cases hp : f.parsed with
      | error e =>
          cases incl <;> simp [unitRes, unitDatas, unitIgn, hp, List.flatMap_cons]
      | ok doc =>
          simp [unitRes, unitDatas, unitIgn, hp, List.flatMap_cons]

theorem organize_eq_of_perm {r1 r2 d1 d2 : List NormalizedRecord}
    (hr : r1.Perm r2) (hd : d1.Perm d2)
    (hdetr : ∀ a ∈ r1, ∀ b ∈ r1, recLE a b = true → recLE b a = true → a = b)
    (hdetd : ∀ a ∈ d1, ∀ b ∈ d1, recLE a b = true → recLE b a = true → a = b) :
    organize_by_service r1 d1 = organize_by_service r2 d2 := by
  unfold organize_by_service
  apply List.map_congr_left
  intro k hk
  rw [Prod.mk.injEq]
  refine ⟨rfl, ?_⟩
  rw [ServiceBucket.mk.injEq]
  constructor
  · exact sortBy_eq_of_perm recLE_total recLE_trans (hr.filter _)
      (fun a ha b hb => hdetr a (List.mem_of_mem_filter ha) b (List.mem_of_mem_filter hb))
  · exact sortBy_eq_of_perm recLE_total recLE_trans (hd.filter _)
      (fun a ha b hb => hdetd a (List.mem_of_mem_filter ha) b (List.mem_of_mem_filter hb))

/-- C1 (amended): the transformation is insensitive to the order of the
input units provided the collected records are determined by their sort
keys — whenever two collected resource records (likewise data-source
records and ignored items) compare equal under the sort key only if they
are identical, any two orderings of the same units produce the same
`OutputEnvelope`.  In particular this holds when no two distinct records
share a `(type, name)` address. -/
theorem c1_transform_order_insensitive (files1 files2 : List SourceFile) (incl : Bool)
    (hperm : files1.Perm files2)
    (hres : ∀ a ∈ (collect_units files1 incl).1, ∀ b ∈ (collect_units files1 incl).1,
      recLE a b = true → recLE b a = true → a = b)
    (hdat : ∀ a ∈ (collect_units files1 incl).2.1, ∀ b ∈ (collect_units files1 incl).2.1,
      recLE a b = true → recLE b a = true → a = b)
    (hign : ∀ a ∈ (collect_units files1 incl).2.2, ∀ b ∈ (collect_units files1 incl).2.2,
      ignLE a b = true → ignLE b a = true → a = b) :
    transform_from_prompt files1 incl = transform_from_prompt files2 incl := by
  have hr : (collect_units files1 incl).1.Perm (collect_units files2 incl).1 := by
    rw [collect_units_eq, collect_units_eq]
    exact List.Perm.flatMap_right _ hperm
  have hd : (collect_units files1 incl).2.1.Perm (collect_units files2 incl).2.1 := by
    rw [collect_units_eq, collect_units_eq]
    exact List.Perm.flatMap_right _ hperm
  have hg : (collect_units files1 incl).2.2.Perm (collect_units files2 incl).2.2 := by
    rw [collect_units_eq, collect_units_eq]
    exact List.Perm.flatMap_right _ hperm
  unfold transform_from_prompt
  rw [OutputEnvelope.mk.injEq]
  refine ⟨rfl, rfl, organize_eq_of_perm hr hd hres hdat, ?_⟩
  cases incl with
  | false => rfl
  | true =>
      simp only [if_true]
      rw [Option.some.injEq]
      exact sortBy_eq_of_perm ignLE_total ignLE_trans hg hign

def c1FileA : SourceFile :=
  ⟨"a.tf", .ok [("resource", .vdict [("aws_instance", .vdict [("web",
    .vdict [("ami", .vstr "a")])])])]⟩

def c1FileB : SourceFile :=
  ⟨"b.tf", .ok [("resource", .vdict [("aws_instance", .vdict [("web",
    .vdict [("ami", .vstr "b")])])])]⟩

/-- C1 counterexample: two units declaring the same address
`aws_instance.web` with different bodies.  The two orderings of the same
set of units yield different `OutputEnvelope`s: `sort_records` is a stable
sort on `(type, name, address)`, so records with equal keys keep their
input order. -/
theorem c1_transform_order_cex :
    ([c1FileA, c1FileB] : List SourceFile).Perm [c1FileB, c1FileA] ∧
    transform_from_prompt [c1FileA, c1FileB] false ≠
      transform_from_prompt [c1FileB, c1FileA] false :=
  ⟨List.Perm.swap c1FileB c1FileA [], by decide⟩

def c1FileC : SourceFile :=
  ⟨"c.tf", .ok [("resource", .vdict [("aws_vpc", .vdict [("main", .vdict [])])])]⟩

def c1FileD : SourceFile :=
  ⟨"d.tf", .ok [("resource", .vdict [("aws_instance", .vdict [("web", .vdict [])])])]⟩

/-- C1 witness: with distinct addresses the two orderings agree. -/
theorem c1_transform_order_insensitive_w :
    transform_from_prompt [c1FileC, c1FileD] true
      = transform_from_prompt [c1FileD, c1FileC] true :=
  c1_transform_order_insensitive [c1FileC, c1FileD] [c1FileD, c1FileC] true
    (List.Perm.swap c1FileD c1FileC []) (by decide) (by decide) (by decide)

end TfTransform
